import Mathlib

/-!
Verification of the LFPy MPI example (`examples/example2_mpi.py`).

The script distributes an extracellular-potential computation over a fixed
group of MPI workers: every worker slices the flattened grid of evaluation
points with the Python slice `a[RANK::SIZE]`, runs the forward model over
its own slice, non-root workers send their partial result (coordinate
arrays plus potential matrix) to rank 0, all ranks hit a barrier, and rank
0 concatenates the received partial results onto its own in arrival order.

This file embeds the script's partitioning, gather and merge logic over
`List`/`Nat`, models the forward electrostatic solver (which lives in the
external LFPy library, not in this repository) from the specification, and
proves the specified properties.
-/

namespace LFPyMPI

/-! ### The partitioner: Python extended slicing `a[r::W]`

`a[r::W]` drops the first `r` elements and then keeps every `W`-th element
of the rest, starting with the first.  `stridedAux W k xs` keeps the
element `k` positions ahead and every `W`-th element after it. -/

def stridedAux (W : Nat) : Nat → List α → List α
  | _, [] => []
  | 0, x :: xs => x :: stridedAux W (W - 1) xs
  | k + 1, _ :: xs => stridedAux W k xs

/-- The Python slice `xs[r::W]` (start `r`, step `W`), as used at
`electrodeParameters` to split the flattened grid across MPI ranks. -/
def pySlice (r W : Nat) (xs : List α) : List α :=
  stridedAux W 0 (xs.drop r)

theorem drop_range' : ∀ (r a n : Nat), (List.range' a n).drop r = List.range' (a + r) (n - r)
  | 0, a, n => by simp
  | r + 1, a, 0 => by simp
  | r + 1, a, n + 1 => by
    rw [List.range'_succ, List.drop_succ_cons, drop_range' r (a + 1) n]
    have h1 : a + 1 + r = a + (r + 1) := by omega
    have h2 : n - r = n + 1 - (r + 1) := by omega
    rw [h1, h2]

theorem stridedAux_range' {W : Nat} (hW : 1 ≤ W) :
    ∀ (n a k : Nat),
      stridedAux W k (List.range' a n) = List.range' (a + k) ((n - k + (W - 1)) / W) W := by
  intro n
  induction n with
  | zero =>
    intro a k
    have h1 : (W - 1) / W = 0 := Nat.div_eq_of_lt (by omega)
    simp [stridedAux, h1]
  | succ n ih =>
    intro a k
    cases k with
    | zero =>
      rw [List.range'_succ]
      show a :: stridedAux W (W - 1) (List.range' (a + 1) n) = _
      rw [ih (a + 1) (W - 1)]
      have h2 : n - (W - 1) + (W - 1) = n ∨ (n - (W - 1) + (W - 1)) / W = 0 ∧ n / W = 0 := by
        rcases Nat.le_total (W - 1) n with h | h
        · exact Or.inl (Nat.sub_add_cancel h)
        · exact Or.inr ⟨Nat.div_eq_of_lt (by omega), Nat.div_eq_of_lt (by omega)⟩
      have h3 : (n - (W - 1) + (W - 1)) / W = n / W := by
        rcases h2 with h | ⟨h, h'⟩
        · rw [h]
        · rw [h, h']
      have h4 : (n + 1 - 0 + (W - 1)) / W = n / W + 1 := by
        have : n + 1 - 0 + (W - 1) = n + W := by omega
        rw [this, Nat.add_div_right _ (by omega)]
      rw [h3, h4, List.range'_succ]
      have h5 : a + 1 + (W - 1) = a + W := by omega
      rw [h5]
      simp
    | succ k =>
      rw [List.range'_succ]
      show stridedAux W k (List.range' (a + 1) n) = _
      rw [ih (a + 1) k]
      congr 1
      · omega
      · congr 1
        omega

/-- Closed form of the slice of an index range. -/
theorem pySlice_range {W : Nat} (hW : 1 ≤ W) (r N : Nat) :
    pySlice r W (List.range N) = List.range' r ((N - r + (W - 1)) / W) W := by
  rw [pySlice, List.range_eq_range', drop_range', stridedAux_range' hW]
  simp

/-- The slice `(range N)[r::W]` contains exactly the indices `i < N` with
`i % W = r`. -/
theorem mem_pySlice_range {W : Nat} (hW : 1 ≤ W) {r : Nat} (hr : r < W) (N i : Nat) :
    i ∈ pySlice r W (List.range N) ↔ i < N ∧ i % W = r := by
  rw [pySlice_range hW, List.mem_range']
  constructor
  · rintro ⟨j, hj, rfl⟩
    have key : (j + 1) * W ≤ N - r + (W - 1) := (Nat.le_div_iff_mul_le (by omega)).mp hj
    have e : (j + 1) * W = W * j + W := by ring
    rw [e] at key
    constructor
    · set t := W * j with ht
      omega
    · rw [Nat.mul_comm, Nat.add_mul_mod_self_right, Nat.mod_eq_of_lt hr]
  · rintro ⟨hiN, hir⟩
    have hdm : W * (i / W) + i % W = i := Nat.div_add_mod i W
    rw [hir] at hdm
    refine ⟨i / W, ?_, ?_⟩
    · refine (Nat.le_div_iff_mul_le (by omega)).mpr ?_
      have e : (i / W + 1) * W = W * (i / W) + W := by ring
      rw [e]
      set t := W * (i / W) with ht
      omega
    · set t := W * (i / W) with ht
      omega

theorem pySlice_nodup {W : Nat} (hW : 1 ≤ W) (r N : Nat) :
    (pySlice r W (List.range N)).Nodup := by
  rw [pySlice_range hW]
  exact List.nodup_range' _ _ W (by omega)

/-- The `W` slices of an index range are pairwise disjoint and their union
is a permutation of the range. -/
theorem pySlice_union_perm {W : Nat} (hW : 1 ≤ W) (N : Nat) :
    ((List.range W).flatMap fun r => pySlice r W (List.range N)).Perm (List.range N) := by
  have hnd : ((List.range W).flatMap fun r => pySlice r W (List.range N)).Nodup := by
    rw [List.nodup_flatMap]
    constructor
    · intro r _
      exact pySlice_nodup hW r N
    · rw [List.pairwise_iff_getElem]
      intro i j hi hj hij
      rw [List.length_range] at hi hj
      simp only [List.getElem_range, Function.onFun]
      intro a ha ha'
      have h1 := (mem_pySlice_range hW hi N a).mp ha
      have h2 := (mem_pySlice_range hW hj N a).mp ha'
      have : i = j := h1.2.symm.trans h2.2
      omega
  refine (List.perm_ext_iff_of_nodup hnd (List.nodup_range N)).mpr ?_
  intro i
  simp only [List.mem_flatMap, List.mem_range]
  constructor
  · rintro ⟨r, hrW, hi⟩
    exact ((mem_pySlice_range hW hrW N i).mp hi).1
  · intro hiN
    have hm : i % W < W := Nat.mod_lt i (by omega)
    exact ⟨i % W, hm, (mem_pySlice_range hW hm N i).mpr ⟨hiN, rfl⟩⟩

/-- C1: for every point count `N ≥ 0` and worker count `W ≥ 1`, the
partitioner (`xs[r::W]` at `electrodeParameters`) assigns to worker `r`
exactly the indices `i` with `i % W = r`; the `W` partitions are pairwise
disjoint and their union is `{0, …, N-1}` with each index exactly once,
and when `N < W` some worker receives an empty partition. -/
theorem partitioner_round_robin (N W : Nat) (hW : 1 ≤ W) :
    (∀ r, r < W → ∀ i, (i ∈ pySlice r W (List.range N) ↔ i < N ∧ i % W = r)) ∧
    (∀ r r', r < W → r' < W → r ≠ r' →
      ∀ i, i ∈ pySlice r W (List.range N) → i ∉ pySlice r' W (List.range N)) ∧
    ((List.range W).flatMap fun r => pySlice r W (List.range N)).Perm (List.range N) ∧
    (N < W → ∃ r, r < W ∧ pySlice r W (List.range N) = []) := by
  refine ⟨fun r hr i => mem_pySlice_range hW hr N i, ?_, pySlice_union_perm hW N, ?_⟩
  · intro r r' hr hr' hne i hi hi'
    have h1 := (mem_pySlice_range hW hr N i).mp hi
    have h2 := (mem_pySlice_range hW hr' N i).mp hi'
    exact hne (h1.2.symm.trans h2.2)
  · intro hNW
    refine ⟨N, hNW, ?_⟩
    rw [pySlice_range hW, Nat.sub_self, Nat.zero_add, Nat.div_eq_of_lt (by omega)]
    rfl

theorem partitioner_round_robin_witness :
    (1 : Nat) ≤ 2 ∧
      ((List.range 2).flatMap fun r => pySlice r 2 (List.range 5)).Perm (List.range 5) :=
  ⟨by decide, (partitioner_round_robin 5 2 (by decide)).2.2.1⟩

/-! ### The gather and merge, at the level of point indices -/

/-- Non-root ranks `1, …, W-1`: the senders in the gather (the root's
receive loop `for i in xrange(1, SIZE)`). -/
def nonRootRanks (W : Nat) : List Nat := List.range' 1 (W - 1)

/-- Index-level merged list built by the root's merge loop: its own slice
first (its local partial result), then each received slice in arrival
order, concatenated with `np.r_`. -/
def mergedIdx (N W : Nat) (arrival : List Nat) : List Nat :=
  pySlice 0 W (List.range N) ++ arrival.flatMap fun r => pySlice r W (List.range N)

theorem range_eq_cons_nonRootRanks {W : Nat} (hW : 1 ≤ W) :
    List.range W = 0 :: nonRootRanks W := by
  obtain ⟨V, rfl⟩ : ∃ V, W = V + 1 := ⟨W - 1, by omega⟩
  rw [List.range_eq_range', List.range'_succ, nonRootRanks]
  simp

theorem mergedIdx_perm {N W : Nat} (hW : 1 ≤ W) {arrival : List Nat}
    (h : arrival.Perm (nonRootRanks W)) :
    (mergedIdx N W arrival).Perm (List.range N) := by
  have h0 : (0 :: arrival).Perm (List.range W) := by
    rw [range_eq_cons_nonRootRanks hW]
    exact h.cons 0
  have h1 : mergedIdx N W arrival
      = (0 :: arrival).flatMap fun r => pySlice r W (List.range N) := by
    simp [mergedIdx]
  rw [h1]
  exact (h0.flatMap_right _).trans (pySlice_union_perm hW N)

/-- C2: the merged result on the root — its own local slice concatenated
with the received slices in arrival order — contains every evaluation
point exactly once (no duplicates, no omissions), but its order need not
equal the canonical index order. -/
theorem merge_covers_all_points (N W : Nat) (hW : 1 ≤ W) (arrival : List Nat)
    (h : arrival.Perm (nonRootRanks W)) :
    (mergedIdx N W arrival).Perm (List.range N) ∧
      ∃ N' W' arrival', arrival'.Perm (nonRootRanks W') ∧
        mergedIdx N' W' arrival' ≠ List.range N' := by
  refine ⟨mergedIdx_perm hW h, 3, 2, [1], ?_, ?_⟩
  · decide
  · decide

theorem merge_covers_all_points_witness :
    (mergedIdx 5 2 [1]).Perm (List.range 5) ∧
      ∃ N' W' arrival', arrival'.Perm (nonRootRanks W') ∧
        mergedIdx N' W' arrival' ≠ List.range N' :=
  merge_covers_all_points 5 2 (by decide) [1] (by decide)

/-! ### The gather protocol as per-rank event traces -/

/-- The communication-relevant events a worker executes, in program order:
computing its local result (`cell.simulate` with the electrode), sending a
message to a destination rank, receiving one message, the collective
barrier, and (root only) merging the received results. -/
inductive Ev where
  | compute : Ev
  | send : Nat → Ev
  | recv : Ev
  | merge : Ev
  | barrier : Ev
  deriving DecidableEq

/-- Per-rank event trace of the script: every rank computes; rank 0 then
receives `W - 1` messages, hits the barrier, and merges; every other rank
sends one message to rank 0 and hits the barrier. -/
def localTrace (W rank : Nat) : List Ev :=
  if rank = 0 then
    Ev.compute :: (List.replicate (W - 1) Ev.recv ++ [Ev.barrier, Ev.merge])
  else
    [Ev.compute, Ev.send 0, Ev.barrier]

/-- Position of the barrier in a rank's trace. -/
def barrierIdx (W rank : Nat) : Nat := if rank = 0 then W else 2

/-- The root's receive loop: it appends each received payload in arrival
order (`COMM.recv(source=MPI.ANY_SOURCE)` followed by `results.append`),
so the stored results are tagged by arrival position, not by rank. -/
def rootCollect (inbox : List (Nat × α)) : List α := inbox.map Prod.snd

theorem localTrace_root_length (W : Nat) (hW : 1 ≤ W) :
    (localTrace W 0).length = W + 2 := by
  simp [localTrace]
  omega

/-- C4: each non-root worker sends exactly one message (to rank 0), the
root receives exactly `W - 1` messages, and for any arrival order of the
senders the collected list stores, at position `j`, the message of the
`j`-th arriving sender — tagging by arrival order, not by rank. -/
theorem gather_message_discipline (W : Nat) (hW : 1 ≤ W) :
    (∀ r, localTrace W (r + 1) = [Ev.compute, Ev.send 0, Ev.barrier]) ∧
    (localTrace W 0).count Ev.recv = W - 1 ∧
    (∀ (α : Type) (msgOf : Nat → α) (inbox : List (Nat × α)),
      (inbox.map Prod.fst).Perm (nonRootRanks W) →
      (∀ pr ∈ inbox, pr.2 = msgOf pr.1) →
      (rootCollect inbox).length = W - 1 ∧
        rootCollect inbox = inbox.map fun pr => msgOf pr.1) := by
  refine ⟨fun r => by simp [localTrace], ?_, ?_⟩
  · simp [localTrace, List.count_cons, List.count_append, List.count_replicate]
  · intro α msgOf inbox hperm hmsg
    constructor
    · have h1 : (rootCollect inbox).length = inbox.length := by
        simp [rootCollect]
      have h2 : (inbox.map Prod.fst).length = (nonRootRanks W).length := hperm.length_eq
      simp only [List.length_map, nonRootRanks, List.length_range'] at h2
      rw [h1, h2]
    · rw [rootCollect]
      exact List.map_congr_left hmsg

theorem gather_message_discipline_witness :
    (localTrace 3 0).count Ev.recv = 3 - 1 ∧
      ((rootCollect [(2, 20), (1, 10)]).length = 3 - 1 ∧
        rootCollect [(2, 20), (1, 10)] = [(2, 20), (1, 10)].map fun pr => pr.1 * 10) :=
  ⟨(gather_message_discipline 3 (by decide)).2.1,
    (gather_message_discipline 3 (by decide)).2.2 Nat (fun r => r * 10)
      [(2, 20), (1, 10)] (by decide) (by decide)⟩

/-- C5: every rank's trace contains the barrier right where the script
places it, and for any global timing of events that is monotone in program
order and satisfies the barrier semantics (no event after a rank's barrier
happens before any rank has reached the barrier), the root's merge happens
after every rank's barrier, after all of the root's receives, and after
every non-root send — the gather completes before any rank leaves the
protocol and the root merges only after the barrier. -/
theorem barrier_separates_gather_from_merge (W : Nat) (hW : 1 ≤ W)
    (t : Nat → Nat → Nat)
    (mono : ∀ r, r < W → ∀ j, j < (localTrace W r).length → ∀ i, i < j → t r i < t r j)
    (bsem : ∀ p, p < W → ∀ q, q < W → ∀ i, i < (localTrace W p).length →
      barrierIdx W p < i → t q (barrierIdx W q) < t p i) :
    (∀ r, r < W → (localTrace W r)[barrierIdx W r]? = some Ev.barrier) ∧
    (localTrace W 0)[W + 1]? = some Ev.merge ∧
    (∀ q, q < W → t q (barrierIdx W q) < t 0 (W + 1)) ∧
    (∀ j, 1 ≤ j → j ≤ W - 1 → t 0 j < t 0 (W + 1)) ∧
    (∀ r, 1 ≤ r → r < W → t r 1 < t 0 (W + 1)) := by
  obtain ⟨V, rfl⟩ : ∃ V, W = V + 1 := ⟨W - 1, by omega⟩
  have hunf : localTrace (V + 1) 0
      = Ev.compute :: (List.replicate V Ev.recv ++ [Ev.barrier, Ev.merge]) := by
    simp [localTrace]
  have hlen0 : (localTrace (V + 1) 0).length = V + 3 := by
    simp [hunf]
  have hmergeIdx : (localTrace (V + 1) 0)[V + 2]? = some Ev.merge := by
    have h2 : V + 2 = (V + 1) + 1 := rfl
    rw [hunf, h2, List.getElem?_cons_succ,
      List.getElem?_append_right (by simp)]
    simp
  have hmerge_time : ∀ q, q < V + 1 → t q (barrierIdx (V + 1) q) < t 0 (V + 2) := by
    intro q hq
    exact bsem 0 (by omega) q hq (V + 2) (by rw [hlen0]; omega) (by simp [barrierIdx])
  refine ⟨?_, hmergeIdx, hmerge_time, ?_, ?_⟩
  · intro r hr
    by_cases h0 : r = 0
    · subst h0
      have hb : barrierIdx (V + 1) 0 = V + 1 := by simp [barrierIdx]
      rw [hunf, hb, List.getElem?_cons_succ,
        List.getElem?_append_right (by simp)]
      simp
    · simp [localTrace, barrierIdx, h0]
  · intro j hj1 hj2
    exact mono 0 (by omega) (V + 2) (by rw [hlen0]; omega) j (by omega)
  · intro r hr1 hr2
    have h0 : ¬ r = 0 := by omega
    have hlen : (localTrace (V + 1) r).length = 3 := by
      simp [localTrace, h0]
    have hstep : t r 1 < t r 2 := mono r hr2 2 (by rw [hlen]; omega) 1 (by omega)
    have hbar : barrierIdx (V + 1) r = 2 := by
      simp [barrierIdx, h0]
    have hmt := hmerge_time r hr2
    rw [hbar] at hmt
    show t r 1 < t 0 (V + 2)
    omega

theorem barrier_separates_gather_from_merge_witness :
    (∀ r, r < 2 → (localTrace 2 r)[barrierIdx 2 r]? = some Ev.barrier) ∧
    (localTrace 2 0)[2 + 1]? = some Ev.merge ∧
    (∀ q, q < 2 → 2 * barrierIdx 2 q + q < 2 * (2 + 1) + 0) ∧
    (∀ j, 1 ≤ j → j ≤ 2 - 1 → 2 * j + 0 < 2 * (2 + 1) + 0) ∧
    (∀ r, 1 ≤ r → r < 2 → 2 * 1 + r < 2 * (2 + 1) + 0) :=
  barrier_separates_gather_from_merge 2 (by decide) (fun r i => 2 * i + r)
    (by decide) (by decide)

/-! ### Partial results and the merge loop -/

/-- A worker's partial result as sent on the wire: the three coordinate
arrays and the potential matrix, exactly the 4-tuple
`[electrode.x, electrode.y, electrode.z, electrode.LFP]`.  `α` is the
coordinate scalar type, `β` the type of one row of the matrix (one
point's potential time series). -/
structure PartialResult (α β : Type) where
  x : List α
  y : List α
  z : List α
  lfp : List β
  deriving DecidableEq

/-- One step of the root's merge loop: `np.r_` concatenation of all four
components. -/
def mergeTwo (a b : PartialResult α β) : PartialResult α β :=
  ⟨a.x ++ b.x, a.y ++ b.y, a.z ++ b.z, a.lfp ++ b.lfp⟩

/-- The whole merge loop (`for result in results`): fold the received
results into the root's own, in arrival order. -/
def mergeAll (root : PartialResult α β) (received : List (PartialResult α β)) :
    PartialResult α β :=
  received.foldl mergeTwo root

/-- Row view of a partial result: the list of `(x, y, z, row)` quadruples
pairing each point's coordinates with its row of the potential matrix. -/
def rows (pr : PartialResult α β) : List (α × α × α × β) :=
  pr.x.zip (pr.y.zip (pr.z.zip pr.lfp))

/-- The three coordinate arrays and the potential matrix have the same
number of entries/rows. -/
def wellFormed (pr : PartialResult α β) : Prop :=
  pr.x.length = pr.y.length ∧ pr.y.length = pr.z.length ∧ pr.z.length = pr.lfp.length

instance (pr : PartialResult α β) : Decidable (wellFormed pr) :=
  inferInstanceAs (Decidable (_ ∧ _ ∧ _))

theorem wellFormed_mergeTwo {a b : PartialResult α β} (ha : wellFormed a)
    (hb : wellFormed b) : wellFormed (mergeTwo a b) := by
  obtain ⟨ha1, ha2, ha3⟩ := ha
  obtain ⟨hb1, hb2, hb3⟩ := hb
  refine ⟨?_, ?_, ?_⟩ <;> simp [mergeTwo] <;> omega

theorem rows_mergeTwo {a b : PartialResult α β} (ha : wellFormed a) :
    rows (mergeTwo a b) = rows a ++ rows b := by
  obtain ⟨ha1, ha2, ha3⟩ := ha
  simp only [rows, mergeTwo]
  rw [List.zip_append ha3, List.zip_append, List.zip_append]
  · simp only [List.length_zip, ha1, ha2, ha3]
    omega
  · simp only [List.length_zip, List.length_zip, ha2, ha3]
    omega

theorem mergeAll_spec {α β : Type} :
    ∀ (received : List (PartialResult α β)) (root : PartialResult α β),
      wellFormed root → (∀ pr ∈ received, wellFormed pr) →
      wellFormed (mergeAll root received) ∧
        rows (mergeAll root received) = rows root ++ (received.map rows).flatten
  | [], root, hr, _ => by
    refine ⟨hr, ?_⟩
    simp [mergeAll]
  | pr :: rest, root, hr, hall => by
    have hpr : wellFormed pr := hall pr (by simp)
    have hrest : ∀ q ∈ rest, wellFormed q := fun q hq => hall q (by simp [hq])
    have hstep : wellFormed (mergeTwo root pr) := wellFormed_mergeTwo hr hpr
    have ih := mergeAll_spec rest (mergeTwo root pr) hstep hrest
    have hunfold : mergeAll root (pr :: rest) = mergeAll (mergeTwo root pr) rest := rfl
    refine ⟨hunfold ▸ ih.1, ?_⟩
    rw [hunfold, ih.2, rows_mergeTwo hr]
    simp [List.append_assoc]

/-- C10: each message is the 4-tuple of x, y, z coordinate arrays and the
potential matrix; if every partial result pairs its rows with its
coordinates (equal lengths), then the concatenating merge keeps the
lengths equal and row `j` of the merged matrix still corresponds to the
merged `(x[j], y[j], z[j])`: the merged row pairing is exactly the
concatenation of the per-message row pairings. -/
theorem merge_preserves_pairing (α β : Type) (root : PartialResult α β)
    (received : List (PartialResult α β)) (hr : wellFormed root)
    (hall : ∀ pr ∈ received, wellFormed pr) :
    wellFormed (mergeAll root received) ∧
      rows (mergeAll root received) = rows root ++ (received.map rows).flatten :=
  mergeAll_spec received root hr hall

theorem merge_preserves_pairing_witness :
    wellFormed (mergeAll (⟨[1], [2], [3], [10]⟩ : PartialResult Nat Nat)
        [⟨[4, 5], [6, 7], [8, 9], [20, 21]⟩]) ∧
      rows (mergeAll (⟨[1], [2], [3], [10]⟩ : PartialResult Nat Nat)
          [⟨[4, 5], [6, 7], [8, 9], [20, 21]⟩])
        = rows (⟨[1], [2], [3], [10]⟩ : PartialResult Nat Nat)
            ++ ([(⟨[4, 5], [6, 7], [8, 9], [20, 21]⟩ : PartialResult Nat Nat)].map rows).flatten :=
  merge_preserves_pairing Nat Nat ⟨[1], [2], [3], [10]⟩
    [⟨[4, 5], [6, 7], [8, 9], [20, 21]⟩] (by decide) (by decide)

/-! ### The forward electrostatic model

The solver itself lives in the external LFPy library
(`LFPy.RecExtElectrode` / `cell.simulate`), not in this repository; the
definitions in this section are modelled from the specification (§4.2,
§7). -/

/-- A 3D point. -/
structure Vec3 where
  x : ℝ
  y : ℝ
  z : ℝ

/-- Euclidean distance. -/
noncomputable def dist3 (p q : Vec3) : ℝ :=
  Real.sqrt ((p.x - q.x) ^ 2 + (p.y - q.y) ^ 2 + (p.z - q.z) ^ 2)

/-- Modelled from the spec: a compartment of the morphology — start
point, end point, diameter, and its transmembrane current time series
`I(t)` (indexed by timestep), produced by the external simulator. -/
structure Compartment where
  startP : Vec3
  endP : Vec3
  diam : ℝ
  current : Nat → ℝ

noncomputable def midpoint (c : Compartment) : Vec3 :=
  ⟨(c.startP.x + c.endP.x) / 2, (c.startP.y + c.endP.y) / 2,
    (c.startP.z + c.endP.z) / 2⟩

/-- Modelled from the spec: an ordered sequence of compartments with one
designated soma. -/
structure Morphology where
  comps : List Compartment
  soma : Nat

/-- Source-model selector (`'method'` in `electrodeParameters`; the
script selects `'som_as_point'`). -/
inductive SourceModel where
  | pointSource
  | lineSource
  | somaAsPoint

/-- Point-source geometry factor: `1 / distance(p, midpoint)`. -/
noncomputable def pointFactor (c : Compartment) (p : Vec3) : ℝ :=
  1 / dist3 p (midpoint c)

/-- Modelled from the spec: the standard line-source closed form, via the
longitudinal/perpendicular decomposition of `p` against the segment. -/
noncomputable def lineFactor (c : Compartment) (p : Vec3) : ℝ :=
  let L := dist3 c.startP c.endP
  let h := ((p.x - c.startP.x) * (c.endP.x - c.startP.x) +
            (p.y - c.startP.y) * (c.endP.y - c.startP.y) +
            (p.z - c.startP.z) * (c.endP.z - c.startP.z)) / L
  let r2 := dist3 p c.startP ^ 2 - h ^ 2
  (1 / L) *
    Real.log ((Real.sqrt (h ^ 2 + r2) + h) /
      (Real.sqrt ((h - L) ^ 2 + r2) + (h - L)))

open Classical in
/-- The geometry factor a compartment contributes under the selected
source model; under `somaAsPoint` the soma compartment is treated as a
point source when the point falls within the configured radius of its
center, all other compartments as line sources. -/
noncomputable def compFactor (model : SourceModel) (somaRadius : ℝ) (isSoma : Bool)
    (c : Compartment) (p : Vec3) : ℝ :=
  match model with
  | .pointSource => pointFactor c p
  | .lineSource => lineFactor c p
  | .somaAsPoint =>
    if isSoma = true ∧ dist3 p (midpoint c) ≤ somaRadius then pointFactor c p
    else lineFactor c p

/-- One compartment's contribution `I(t) · factor(geometry, p)`. -/
noncomputable def contribution (model : SourceModel) (somaRadius : ℝ) (somaIdx : Nat)
    (ic : Nat × Compartment) (p : Vec3) (t : Nat) : ℝ :=
  ic.2.current t * compFactor model somaRadius (ic.1 == somaIdx) ic.2 p

/-- Modelled from the spec:
`V(p,t) = (1 / (4·π·sigma)) · Σ over compartments of contribution`. -/
noncomputable def potential (model : SourceModel) (somaRadius σ : ℝ) (m : Morphology)
    (p : Vec3) (t : Nat) : ℝ :=
  (1 / (4 * Real.pi * σ)) *
    (m.comps.enum.map fun ic => contribution model somaRadius m.soma ic p t).sum

/-- Scale every compartment's current trace by `k`. -/
def scaleCurrents (k : ℝ) (m : Morphology) : Morphology :=
  ⟨m.comps.map fun c => { c with current := fun t => k * c.current t }, m.soma⟩

theorem compFactor_currents (model : SourceModel) (somaRadius : ℝ) (b : Bool)
    (c : Compartment) (g : Nat → ℝ) (p : Vec3) :
    compFactor model somaRadius b ⟨c.startP, c.endP, c.diam, g⟩ p
      = compFactor model somaRadius b c p := by
  cases model <;> rfl

/-- C7: the forward model is linear in the current traces — scaling every
compartment's current by `k` scales every potential value `V(p,t)` by
exactly `k`, for every source model, point and timestep. -/
theorem forward_model_linear (model : SourceModel) (somaRadius σ k : ℝ)
    (m : Morphology) (p : Vec3) (t : Nat) :
    potential model somaRadius σ (scaleCurrents k m) p t
      = k * potential model somaRadius σ m p t := by
  unfold potential
  have h1 : (scaleCurrents k m).comps.enum.map
        (fun ic => contribution model somaRadius (scaleCurrents k m).soma ic p t)
      = m.comps.enum.map fun ic =>
          k * contribution model somaRadius m.soma ic p t := by
    show (m.comps.map fun c => { c with current := fun t => k * c.current t }).enum.map _ = _
    rw [List.enum_map, List.map_map]
    apply List.map_congr_left
    intro ic _
    obtain ⟨i, c⟩ := ic
    show contribution model somaRadius m.soma
        (i, { c with current := fun t => k * c.current t }) p t = _
    unfold contribution
    rw [compFactor_currents]
    ring
  rw [h1, List.sum_map_mul_left]
  ring

/-! ### Degenerate geometry (spec §7) -/

/-- `p` lies exactly on the segment of compartment `c`. -/
def onSegment (c : Compartment) (p : Vec3) : Prop :=
  ∃ s : ℝ, 0 ≤ s ∧ s ≤ 1 ∧
    p.x = c.startP.x + s * (c.endP.x - c.startP.x) ∧
    p.y = c.startP.y + s * (c.endP.y - c.startP.y) ∧
    p.z = c.startP.z + s * (c.endP.z - c.startP.z)

/-- Modelled from the spec: the evaluation point coincides exactly with
the compartment's source geometry (zero distance) under the selected
source model. -/
def degenerate (model : SourceModel) (somaRadius : ℝ) (isSoma : Bool)
    (c : Compartment) (p : Vec3) : Prop :=
  match model with
  | .pointSource => p = midpoint c
  | .lineSource => onSegment c p
  | .somaAsPoint =>
    (isSoma = true ∧ dist3 p (midpoint c) ≤ somaRadius ∧ p = midpoint c) ∨
    (¬(isSoma = true ∧ dist3 p (midpoint c) ≤ somaRadius) ∧ onSegment c p)

/-- Modelled from the spec: `DegenerateGeometryError`, carrying the
offending evaluation point. -/
structure DegenerateGeometryError where
  point : Vec3

/-- Some compartment's source geometry coincides with `p`. -/
def degeneratePoint (model : SourceModel) (somaRadius : ℝ) (m : Morphology)
    (p : Vec3) : Prop :=
  ∃ ic ∈ m.comps.enum, degenerate model somaRadius (ic.1 == m.soma) ic.2 p

open Classical in
/-- The first evaluation point (in order) whose geometry is degenerate. -/
noncomputable def firstDegenerate (model : SourceModel) (somaRadius : ℝ)
    (m : Morphology) : List Vec3 → Option Vec3
  | [] => none
  | p :: ps =>
    if degeneratePoint model somaRadius m p then some p
    else firstDegenerate model somaRadius m ps

/-- Modelled from the spec: the Computing phase — eager, fail-fast per
point: the first degenerate point aborts the whole phase with
`DegenerateGeometryError`, otherwise every point's potential trace is
produced (no partial skip). -/
noncomputable def solveChecked (model : SourceModel) (somaRadius σ : ℝ)
    (m : Morphology) (pts : List Vec3) :
    Except DegenerateGeometryError (List (Nat → ℝ)) :=
  match firstDegenerate model somaRadius m pts with
  | some p => Except.error ⟨p⟩
  | none => Except.ok (pts.map fun p t => potential model somaRadius σ m p t)

theorem firstDegenerate_eq_none (model : SourceModel) (somaRadius : ℝ)
    (m : Morphology) :
    ∀ pts : List Vec3, firstDegenerate model somaRadius m pts = none ↔
      ∀ p ∈ pts, ¬ degeneratePoint model somaRadius m p
  | [] => by simp [firstDegenerate]
  | p :: ps => by
    rw [firstDegenerate]
    by_cases h : degeneratePoint model somaRadius m p
    · rw [if_pos h]
      simp [h]
    · rw [if_neg h]
      simp [h, firstDegenerate_eq_none model somaRadius m ps]

theorem firstDegenerate_eq_some (model : SourceModel) (somaRadius : ℝ)
    (m : Morphology) :
    ∀ (pts : List Vec3) (p : Vec3), firstDegenerate model somaRadius m pts = some p →
      p ∈ pts ∧ degeneratePoint model somaRadius m p
  | [], p => by simp [firstDegenerate]
  | q :: ps, p => by
    rw [firstDegenerate]
    by_cases h : degeneratePoint model somaRadius m q
    · rw [if_pos h]
      intro he
      have hqp : q = p := by injection he
      subst hqp
      exact ⟨by simp, h⟩
    · rw [if_neg h]
      intro he
      have hrec := firstDegenerate_eq_some model somaRadius m ps p he
      exact ⟨by simp [hrec.1], hrec.2⟩

/-- C8: the solver fails with `DegenerateGeometryError` iff some
evaluation point coincides with some compartment's source geometry; the
error is raised for an offending point and aborts the whole Computing
phase (no partial result); and in the non-root trace the Computing phase
precedes the send, so the failure surfaces before any message is sent. -/
theorem degenerate_geometry_fail_fast (model : SourceModel) (somaRadius σ : ℝ)
    (m : Morphology) (pts : List Vec3) :
    ((∃ e, solveChecked model somaRadius σ m pts = Except.error e) ↔
      ∃ p ∈ pts, degeneratePoint model somaRadius m p) ∧
    (∀ e, solveChecked model somaRadius σ m pts = Except.error e →
      e.point ∈ pts ∧ degeneratePoint model somaRadius m e.point) ∧
    (∀ W r, localTrace W (r + 1) = [Ev.compute, Ev.send 0, Ev.barrier]) := by
  have main : ((∃ e, solveChecked model somaRadius σ m pts = Except.error e) ↔
      ∃ p ∈ pts, degeneratePoint model somaRadius m p) ∧
      (∀ e, solveChecked model somaRadius σ m pts = Except.error e →
        e.point ∈ pts ∧ degeneratePoint model somaRadius m e.point) := by
    cases hfd : firstDegenerate model somaRadius m pts with
    | none =>
      have hok : solveChecked model somaRadius σ m pts
          = Except.ok (pts.map fun p t => potential model somaRadius σ m p t) := by
        unfold solveChecked
        rw [hfd]
      have hnone := (firstDegenerate_eq_none model somaRadius m pts).mp hfd
      constructor
      · constructor
        · rintro ⟨e, he⟩
          rw [hok] at he
          simp at he
        · rintro ⟨p, hp, hd⟩
          exact absurd hd (hnone p hp)
      · intro e he
        rw [hok] at he
        simp at he
    | some q =>
      have herr : solveChecked model somaRadius σ m pts = Except.error ⟨q⟩ := by
        unfold solveChecked
        rw [hfd]
      have hq := firstDegenerate_eq_some model somaRadius m pts q hfd
      constructor
      · constructor
        · intro _
          exact ⟨q, hq.1, hq.2⟩
        · intro _
          exact ⟨⟨q⟩, herr⟩
      · intro e he
        rw [herr] at he
        have hqe : (⟨q⟩ : DegenerateGeometryError) = e := by
          injection he
        rw [← hqe]
        exact hq
  exact ⟨main.1, main.2, fun W r => by simp [localTrace]⟩

/-! ### Per-worker run and serial equivalence -/

theorem pySlice_one (xs : List α) : pySlice 0 1 xs = xs := by
  rw [pySlice, List.drop_zero]
  induction xs with
  | nil => rfl
  | cons x xs ih =>
    show x :: stridedAux 1 0 xs = x :: xs
    rw [ih]

/-- A rank's partial result: the sliced coordinate arrays (the
`electrodeParameters` slices) and the potential matrix over its sliced
points. -/
noncomputable def localResult (model : SourceModel) (somaRadius σ : ℝ)
    (m : Morphology) (r W : Nat) (pts : List Vec3) : PartialResult ℝ (Nat → ℝ) where
  x := pySlice r W (pts.map Vec3.x)
  y := pySlice r W (pts.map Vec3.y)
  z := pySlice r W (pts.map Vec3.z)
  lfp := (pySlice r W pts).map fun p t => potential model somaRadius σ m p t

/-- A single non-distributed run over the full ordered point list. -/
noncomputable def serialResult (model : SourceModel) (somaRadius σ : ℝ)
    (m : Morphology) (pts : List Vec3) : PartialResult ℝ (Nat → ℝ) where
  x := pts.map Vec3.x
  y := pts.map Vec3.y
  z := pts.map Vec3.z
  lfp := pts.map fun p t => potential model somaRadius σ m p t

/-- C3: with a single worker the receive loop is empty, the partition
`[0::1]` is the full point list, and the merge leaves the root's local
result unchanged, so the merged result is exactly the serial run. -/
theorem serial_equivalence (model : SourceModel) (somaRadius σ : ℝ)
    (m : Morphology) (pts : List Vec3) :
    nonRootRanks 1 = [] ∧
    pySlice 0 1 pts = pts ∧
    mergeAll (localResult model somaRadius σ m 0 1 pts) []
      = serialResult model somaRadius σ m pts := by
  refine ⟨rfl, pySlice_one pts, ?_⟩
  show localResult model somaRadius σ m 0 1 pts = serialResult model somaRadius σ m pts
  unfold localResult serialResult
  simp [pySlice_one]

/-! ### Worker-local state after the send (frame conditions) -/

/-- The Python-level state of a worker the gather branch can touch:
`results` and `electrode` (both nullable), plus the state it must leave
alone (`cell`, `synapse`). -/
structure WorkerState (R E C S : Type) where
  results : Option R
  electrode : Option E
  cell : C
  synapse : S

/-- The non-root branch: build the message from the electrode, send it,
then set `results = None` and `electrode = None`. Returns the new state
and the sent message. -/
def nonRootSendPhase (msgOf : Option E → M) (s : WorkerState R E C S) :
    WorkerState R E C S × M :=
  (⟨none, none, s.cell, s.synapse⟩, msgOf s.electrode)

/-- The merged result as seen from a rank: it exists only on the root. -/
def mergedOn (rank : Nat) (merged : A) : Option A :=
  if rank = 0 then some merged else none

/-- C9: after the Sending phase a non-root worker's `results` and
`electrode` are released (`None`), every other piece of its state is
unchanged, the message it sent is exactly the one built from its
electrode, and the merged result exists only on rank 0. -/
theorem nonroot_exposes_nothing (R E C S M A : Type) (msgOf : Option E → M)
    (s : WorkerState R E C S) (a : A) :
    (nonRootSendPhase msgOf s).1.results = none ∧
    (nonRootSendPhase msgOf s).1.electrode = none ∧
    (nonRootSendPhase msgOf s).1.cell = s.cell ∧
    (nonRootSendPhase msgOf s).1.synapse = s.synapse ∧
    (nonRootSendPhase msgOf s).2 = msgOf s.electrode ∧
    mergedOn 0 a = some a ∧
    (∀ r : Nat, mergedOn (r + 1) a = none) := by
  refine ⟨rfl, rfl, rfl, rfl, rfl, rfl, fun r => ?_⟩
  simp [mergedOn]

/-! ### The end-to-end 11×11 scenario -/

/-- The flattened grid of the script: `np.mgrid[-5:6, -5:6] * 10` in the
xz-plane with `Y = 0`, flattened row-major. -/
def gridFlat : List (Int × Int × Int) :=
  (List.range 11).flatMap fun i =>
    (List.range 11).map fun j => (((i : Int) - 5) * 10, 0, ((j : Int) - 5) * 10)

/-- C6: the 11×11 grid has 121 points; with `W = 2` the partitioner gives
worker 0 the 61 even-index points and worker 1 the 60 odd-index points,
and the merged result covers all 121 points exactly once. -/
theorem end_to_end_grid_partition :
    gridFlat.length = 121 ∧
    (pySlice 0 2 gridFlat).length = 61 ∧
    (pySlice 1 2 gridFlat).length = 60 ∧
    pySlice 0 2 (List.range 121) = (List.range 121).filter (fun i => i % 2 == 0) ∧
    pySlice 1 2 (List.range 121) = (List.range 121).filter (fun i => i % 2 == 1) ∧
    (pySlice 0 2 gridFlat ++ pySlice 1 2 gridFlat).Perm gridFlat ∧
    (mergedIdx 121 2 [1]).Perm (List.range 121) := by
  refine ⟨?_, ?_, ?_, ?_, ?_, ?_, ?_⟩ <;> decide

end LFPyMPI
